import Mathlib

/-!
# Rate limiter middleware (`pkg/middleware/ratelimit.go`)

A shallow embedding of the package-level state (`requests`, `cleanupStarted`),
of `startCleanup`, of `RateLimit` and of the handler closure it returns.

Modelling conventions.

* An instant is the monotonic clock reading of a `time.Time` obtained from
  `time.Now()`, in nanoseconds, as an `Int`.  `t.Sub(u)` on two such readings
  is the exact difference `t - u`.
* A `time.Duration` is an `Int` number of nanoseconds (it may be zero or
  negative, as the Go type allows).
* `requests : map[string]time.Time` is an association list whose keys are
  pairwise distinct (`WF`); the order of the list is the order in which a
  `range` loop visits the entries.
* `mu` is not represented: every critical section is one atomic step of the
  model, and steps are executed one after another.
* Every call of `time.Now()` / `time.Since` is a separate clock reading and is
  passed to the model as a separate argument.
-/

namespace RateLimiter

/-! ## The map `requests` -/

/-- The Go map `requests`, as an association list from client IP to instant. -/
abbrev Requests := List (String × Int)

/-- Keys of a Go map are pairwise distinct. -/
def WF (m : Requests) : Prop := (m.map Prod.fst).Nodup

instance (m : Requests) : Decidable (WF m) := by
  unfold WF; infer_instance

/-- The map read `lastRequest, exists := requests[ip]`; `none` is `exists = false`. -/
def lookup (ip : String) : Requests → Option Int
  | [] => none
  | (k, v) :: rest => if k = ip then some v else lookup ip rest

/-- The map write `requests[ip] = t`: overwrite the entry of `ip`, or add one. -/
def store (ip : String) (t : Int) : Requests → Requests
  | [] => [(ip, t)]
  | (k, v) :: rest => if k = ip then (k, t) :: rest else (k, v) :: store ip t rest

/-- The builtin `delete(requests, ip)`. -/
def delete (ip : String) (m : Requests) : Requests :=
  m.filter (fun e => decide (e.1 ≠ ip))

/-! ## The handler closure returned by `RateLimit` -/

/-- The two ways the handler can leave: `c.Next()` or `c.Abort()`. -/
inductive Verdict where
  | Allow
  | Reject
  deriving DecidableEq, Repr

/-- The part of `gin.Context` the handler acts on: the response writer
(`status`, `written`, `body`) and the position in the handler chain. -/
structure Context where
  /-- Status code held by the response writer (`c.Writer.Status()`); 200 until
  one is set. -/
  status : Nat
  /-- Whether the response header was already sent (`c.Writer.Written()`). -/
  written : Bool
  /-- The JSON objects written to the response body so far, in order, each as
  its list of fields. -/
  body : List (List (String × String))
  /-- Set by `c.Abort()`. -/
  aborted : Bool
  /-- Number of times `c.Next()` was invoked. -/
  nextCalls : Nat
  deriving DecidableEq, Repr

/-- A context on which nothing was written yet. -/
def Context.fresh : Context := ⟨200, false, [], false, 0⟩

/-- Gin helper `bodyAllowedForStatus`: no body for 1xx, 204 and 304. -/
def bodyAllowedForStatus (code : Nat) : Bool :=
  !((100 ≤ code && code ≤ 199) || code == 204 || code == 304)

/-- Gin call `c.JSON(code, obj)`.  The status becomes `code` unless the
header was already sent, in which case the earlier status stays; the header
counts as sent afterwards; `obj` is appended to whatever the body already
holds, when a body is allowed for `code`. -/
def Context.JSON (c : Context) (code : Nat) (obj : List (String × String)) : Context :=
  ⟨if 0 < code && !c.written then code else c.status,
    true,
    if bodyAllowedForStatus code then c.body ++ [obj] else c.body,
    c.aborted, c.nextCalls⟩

/-- Gin call `c.Abort()`. -/
def Context.Abort (c : Context) : Context :=
  ⟨c.status, c.written, c.body, true, c.nextCalls⟩

/-- Gin call `c.Next()`, counted; what the later handlers do is not part of
this handler. -/
def Context.Next (c : Context) : Context :=
  ⟨c.status, c.written, c.body, c.aborted, c.nextCalls + 1⟩

/-- The constant `http.StatusTooManyRequests`. -/
def StatusTooManyRequests : Nat := 429

/-- What one run of the handler leaves behind. -/
structure Outcome where
  /-- Which branch was taken. -/
  verdict : Verdict
  /-- The map `requests` after the run. -/
  requests : Requests
  /-- The gin context after the run. -/
  ctx : Context
  deriving DecidableEq, Repr

/-- The closure returned by `RateLimit(duration)` (lines 49-66), run for a
request whose `c.ClientIP()` is `ip`.  `tSince` is the clock reading taken by
`time.Since(lastRequest)` on line 54 (only taken when the entry exists) and
`tNow` the one taken by `time.Now()` on line 62. -/
def handler (duration : Int) (ip : String) (tSince tNow : Int)
    (requests : Requests) (c : Context) : Outcome :=
  match lookup ip requests with
  | some lastRequest =>
    if tSince - lastRequest < duration then
      ⟨Verdict.Reject, requests,
        (c.JSON StatusTooManyRequests
          [("error", "Too many requests. Please try again later.")]).Abort⟩
    else
      ⟨Verdict.Allow, store ip tNow requests, c.Next⟩
  | none => ⟨Verdict.Allow, store ip tNow requests, c.Next⟩

/-! ## The reclamation goroutine started by `startCleanup` -/

/-- The loop `for ip, lastRequest := range requests` of lines 34-38, over the
entries still to visit, acting on the map `acc`. -/
def cleanupLoop (duration now : Int) : List (String × Int) → Requests → Requests
  | [], acc => acc
  | (ip, lastRequest) :: rest, acc =>
    if now - lastRequest > duration then
      cleanupLoop duration now rest (delete ip acc)
    else
      cleanupLoop duration now rest acc

/-- One tick of the ticker (lines 32-39): a single reading `now`, then the
loop over every entry of the map. -/
def cleanupTick (duration now : Int) (requests : Requests) : Requests :=
  cleanupLoop duration now requests requests

/-! ## Package state and setup -/

/-- The package-level variables, together with the goroutines launched so
far (each recorded by the `duration` its closure captured). -/
structure Limiter where
  /-- The map `requests`. -/
  requests : Requests
  /-- The flag `cleanupStarted`. -/
  cleanupStarted : Bool
  /-- One item per executed `go func() ...` statement of line 27. -/
  tasks : List Int
  deriving DecidableEq, Repr

/-- The package state at process start (lines 11-15). -/
def Limiter.init : Limiter := ⟨[], false, []⟩

/-- Function `startCleanup` (lines 18-42), up to the launch of the goroutine. -/
def startCleanup (duration : Int) (s : Limiter) : Limiter :=
  if s.cleanupStarted then s
  else ⟨s.requests, true, s.tasks ++ [duration]⟩

/-- Function `RateLimit` (lines 45-67): starts the cleanup and returns the
handler closure, represented by the `duration` it captured. -/
def RateLimit (duration : Int) (s : Limiter) : Limiter × Int :=
  (startCleanup duration s, duration)

/-! ## Traces -/

/-- One request reaching the handler: its client IP and the two clock
readings the handler takes for it. -/
structure Request where
  /-- Result of `c.ClientIP()`. -/
  ip : String
  /-- Reading of `time.Since` on line 54; when the client has no entry the
  handler does not take this reading and the value is ignored. -/
  tSince : Int
  /-- Reading of `time.Now()` on line 62. -/
  tNow : Int
  deriving DecidableEq, Repr

/-- The handler run on a fresh context for the request `r`. -/
def handle (duration : Int) (m : Requests) (r : Request) : Outcome :=
  handler duration r.ip r.tSince r.tNow m Context.fresh

/-- The map after the handler served the requests `rs` one after another. -/
def serve (duration : Int) : Requests → List Request → Requests
  | m, [] => m
  | m, r :: rs => serve duration (handle duration m r).requests rs

/-- The verdicts of the requests `rs`, served one after another. -/
def verdicts (duration : Int) : Requests → List Request → List Verdict
  | _, [] => []
  | m, r :: rs =>
    (handle duration m r).verdict :: verdicts duration (handle duration m r).requests rs

/-- The verdicts received by client `b` while the requests `rs` are served. -/
def verdictsFor (duration : Int) (b : String) : Requests → List Request → List Verdict
  | _, [] => []
  | m, r :: rs =>
    if r.ip = b then
      (handle duration m r).verdict :: verdictsFor duration b (handle duration m r).requests rs
    else
      verdictsFor duration b (handle duration m r).requests rs

/-- A step of the running process: a request served by the handler, or a
tick of the reclamation goroutine reading the clock as `now`. -/
inductive Event where
  | request (r : Request)
  | tick (now : Int)
  deriving DecidableEq, Repr

/-- The map after one event; `dReq` is the duration captured by the handler,
`dTick` the one captured by the reclamation goroutine. -/
def step (dReq dTick : Int) (m : Requests) : Event → Requests
  | Event.request r => (handle dReq m r).requests
  | Event.tick now => cleanupTick dTick now m

/-- The map after a trace of events. -/
def exec (dReq dTick : Int) : Requests → List Event → Requests
  | m, [] => m
  | m, e :: es => exec dReq dTick (step dReq dTick m e) es

/-- The requests of a trace that were admitted, in the order served. -/
def admitted (dReq dTick : Int) : Requests → List Event → List Request
  | _, [] => []
  | m, Event.request r :: es =>
    if (handle dReq m r).verdict = Verdict.Allow then
      r :: admitted dReq dTick (handle dReq m r).requests es
    else
      admitted dReq dTick (handle dReq m r).requests es
  | m, Event.tick now :: es => admitted dReq dTick (cleanupTick dTick now m) es

/-- The clock readings of a trace are non-decreasing and not below `lo`:
within a request `tSince` is read before `tNow`. -/
def timed (lo : Int) : List Event → Bool
  | [] => true
  | Event.request r :: es => decide (lo ≤ r.tSince) && decide (r.tSince ≤ r.tNow) && timed r.tNow es
  | Event.tick now :: es => decide (lo ≤ now) && timed now es

/-- The package state after a sequence of `RateLimit` calls. -/
def setup (ds : List Int) (s : Limiter) : Limiter :=
  ds.foldl (fun st d => (RateLimit d st).1) s

/-- The verdicts of the requests of a trace of events, in the order served. -/
def traceVerdicts (dReq dTick : Int) : Requests → List Event → List Verdict
  | _, [] => []
  | m, Event.request r :: es =>
    (handle dReq m r).verdict :: traceVerdicts dReq dTick (handle dReq m r).requests es
  | m, Event.tick now :: es => traceVerdicts dReq dTick (cleanupTick dTick now m) es

/-- The requests of a trace of events, with every tick left out. -/
def requestsOf : List Event → List Request
  | [] => []
  | Event.request r :: es => r :: requestsOf es
  | Event.tick _ :: es => requestsOf es

/-- The library call `time.NewTicker(d)`: it panics when `d ≤ 0` (`none`) and
otherwise returns a ticker of period `d`. -/
def NewTicker (d : Int) : Option Int :=
  if d ≤ 0 then none else some d

/-- A reclamation goroutine that is ticking, as far as the map can see it:
the period of its ticker and what one tick does to the map at clock reading
`now` (lines 32-39). -/
structure Task where
  /-- Period of the ticker created on line 28. -/
  period : Int
  /-- Body of the `for range ticker.C` loop. -/
  onTick : Int → Requests → Requests

/-- The goroutine launched by `startCleanup(duration)` (lines 27-41): its
closure captures `duration` and uses it on line 28 and on line 35.  When
`time.NewTicker` panics the goroutine never ticks (`none`). -/
def cleanupTask (duration : Int) : Option Task :=
  match NewTicker duration with
  | none => none
  | some period => some ⟨period, fun now m => cleanupTick duration now m⟩

/-- Whether a launched goroutine panicked on line 28; a panic in a goroutine
ends the whole process. -/
def Limiter.crashed (s : Limiter) : Bool :=
  s.tasks.any (fun d => (NewTicker d).isNone)

/-- The reclamation goroutines that are ticking: none once the process has
ended, otherwise those launched so far. -/
def Limiter.running (s : Limiter) : List Task :=
  if s.crashed then [] else s.tasks.filterMap cleanupTask

/-! ## Basic facts about the map operations -/

theorem lookup_store_self (ip : String) (t : Int) (m : Requests) :
    lookup ip (store ip t m) = some t := by
  induction m with
  | nil => simp [store, lookup]
  | cons e rest ih =>
    obtain ⟨k, v⟩ := e
    by_cases h : k = ip
    · simp [store, lookup, h]
    · simp [store, lookup, h, ih]

theorem lookup_store_ne (ip k : String) (t : Int) (m : Requests) (h : k ≠ ip) :
    lookup k (store ip t m) = lookup k m := by
  induction m with
  | nil => simp [store, lookup, Ne.symm h]
  | cons e rest ih =>
    obtain ⟨k', v⟩ := e
    by_cases h1 : k' = ip
    · subst h1
      simp [store, lookup, Ne.symm h]
    · by_cases h2 : k' = k
      · subst h2
        simp [store, lookup, h1]
      · simp [store, lookup, h1, h2, ih]

theorem keys_store (ip : String) (t : Int) (m : Requests) (k : String) :
    k ∈ (store ip t m).map Prod.fst ↔ k = ip ∨ k ∈ m.map Prod.fst := by
  induction m with
  | nil => simp [store]
  | cons e rest ih =>
    obtain ⟨k', v⟩ := e
    by_cases h1 : k' = ip
    · subst h1
      simp [store]
    · simp only [store, h1, if_false, List.map_cons, List.mem_cons, ih]
      tauto

theorem WF_store (ip : String) (t : Int) (m : Requests) (h : WF m) :
    WF (store ip t m) := by
  induction m with
  | nil => simp [store, WF]
  | cons e rest ih =>
    obtain ⟨k, v⟩ := e
    unfold WF at h ih ⊢
    rw [List.map_cons, List.nodup_cons] at h
    by_cases h1 : k = ip
    · simp only [store, h1, if_true, List.map_cons, List.nodup_cons]
      subst h1
      exact h
    · simp only [store, h1, if_false, List.map_cons, List.nodup_cons]
      refine ⟨?_, ih h.2⟩
      intro hk
      rcases (keys_store ip t rest k).1 hk with h2 | h2
      · exact h1 h2
      · exact h.1 h2

theorem lookup_eq_some_of_mem (m : Requests) (h : WF m) (k : String) (v : Int)
    (hm : (k, v) ∈ m) : lookup k m = some v := by
  induction m with
  | nil => simp at hm
  | cons e rest ih =>
    obtain ⟨k', v'⟩ := e
    unfold WF at h ih
    rw [List.map_cons, List.nodup_cons] at h
    rcases List.mem_cons.1 hm with h1 | h1
    · cases h1
      simp [lookup]
    · have hne : k' ≠ k := by
        intro hk
        subst hk
        exact h.1 (List.mem_map.2 ⟨(k', v), h1, rfl⟩)
      simp [lookup, hne, ih h.2 h1]

theorem mem_of_lookup_eq_some (m : Requests) (k : String) (v : Int)
    (h : lookup k m = some v) : (k, v) ∈ m := by
  induction m with
  | nil => simp [lookup] at h
  | cons e rest ih =>
    obtain ⟨k', v'⟩ := e
    by_cases h1 : k' = k
    · simp [lookup, h1] at h
      simp [h1, h]
    · simp [lookup, h1] at h
      exact List.mem_cons_of_mem _ (ih h)

theorem lookup_eq_none_iff (m : Requests) (k : String) :
    lookup k m = none ↔ k ∉ m.map Prod.fst := by
  induction m with
  | nil => simp [lookup]
  | cons e rest ih =>
    obtain ⟨k', v'⟩ := e
    by_cases h1 : k' = k
    · simp [lookup, h1]
    · simp only [lookup, h1, if_false, ih, List.map_cons, List.mem_cons]
      constructor
      · intro h2 h3
        rcases h3 with h3 | h3
        · exact h1 h3.symm
        · exact h2 h3
      · intro h2 h3
        exact h2 (Or.inr h3)

theorem WF_unique (m : Requests) (h : WF m) (e x : String × Int)
    (he : e ∈ m) (hx : x ∈ m) (hk : e.1 = x.1) : e = x := by
  obtain ⟨k, v⟩ := e
  obtain ⟨k', v'⟩ := x
  simp only at hk
  subst hk
  have h1 := lookup_eq_some_of_mem m h k v he
  have h2 := lookup_eq_some_of_mem m h k v' hx
  rw [h1] at h2
  cases h2
  rfl

theorem WF_filter (p : String × Int → Bool) (m : Requests) (h : WF m) :
    WF (m.filter p) := by
  unfold WF at h ⊢
  exact (h.sublist ((List.filter_sublist m).map Prod.fst))

theorem lookup_filter (p : String × Int → Bool) (m : Requests) (h : WF m) (k : String) :
    lookup k (m.filter p) = (lookup k m).filter (fun v => p (k, v)) := by
  induction m with
  | nil => simp [lookup, Option.filter]
  | cons e rest ih =>
    obtain ⟨k', v'⟩ := e
    unfold WF at h ih
    rw [List.map_cons, List.nodup_cons] at h
    by_cases h1 : k' = k
    · subst h1
      have hnone : lookup k' rest = none := (lookup_eq_none_iff rest k').2 h.1
      by_cases hp : p (k', v') = true
      · simp [List.filter_cons, hp, lookup, Option.filter]
      · have := ih h.2
        rw [hnone] at this
        simp [List.filter_cons, hp, lookup, Option.filter, this]
    · by_cases hp : p (k', v') = true
      · simp [List.filter_cons, hp, lookup, h1, ih h.2]
      · simp [List.filter_cons, hp, lookup, h1, ih h.2]

/-! ## The reclamation loop as a filter -/

theorem cleanupLoop_eq_filter (duration now : Int) (es : List (String × Int))
    (acc : Requests) :
    cleanupLoop duration now es acc =
      acc.filter (fun x => es.all (fun e => !(decide (e.1 = x.1) && decide (now - e.2 > duration)))) := by
  induction es generalizing acc with
  | nil => simp [cleanupLoop]
  | cons e rest ih =>
    obtain ⟨ip, last⟩ := e
    by_cases hgt : now - last > duration
    · simp only [cleanupLoop, hgt, if_true, ih, delete, List.filter_filter]
      apply List.filter_congr
      intro x _
      simp only [List.all_cons, hgt, decide_True, Bool.and_true]
      by_cases hx : ip = x.1
      · simp [hx]
      · have hx2 : x.1 ≠ ip := fun h => hx h.symm
        simp [hx, hx2]
    · simp only [cleanupLoop, hgt, if_false, ih]
      apply List.filter_congr
      intro x _
      simp [List.all_cons, hgt]

theorem cleanupTick_eq_filter (duration now : Int) (m : Requests) (h : WF m) :
    cleanupTick duration now m = m.filter (fun x => decide (now - x.2 ≤ duration)) := by
  unfold cleanupTick
  rw [cleanupLoop_eq_filter]
  apply List.filter_congr
  intro x hx
  by_cases hle : now - x.2 ≤ duration
  · simp only [hle, decide_True, List.all_eq_true]
    intro e he
    by_cases hk : e.1 = x.1
    · have := WF_unique m h e x he hx hk
      subst this
      simp [not_lt.2 hle]
    · simp [hk]
  · simp only [hle, decide_False]
    rw [Bool.eq_false_iff]
    intro hall
    have := List.all_eq_true.1 hall x hx
    simp [not_le.1 hle] at this

theorem WF_cleanupTick (duration now : Int) (m : Requests) (h : WF m) :
    WF (cleanupTick duration now m) := by
  rw [cleanupTick_eq_filter duration now m h]
  exact WF_filter _ m h

theorem lookup_cleanupTick (duration now : Int) (m : Requests) (h : WF m) (k : String) :
    lookup k (cleanupTick duration now m) =
      (lookup k m).filter (fun v => decide (now - v ≤ duration)) := by
  rw [cleanupTick_eq_filter duration now m h, lookup_filter _ m h]

theorem WF_handler (duration : Int) (ip : String) (tSince tNow : Int) (m : Requests)
    (c : Context) (h : WF m) : WF (handler duration ip tSince tNow m c).requests := by
  unfold handler
  cases lookup ip m with
  | none => exact WF_store ip tNow m h
  | some last =>
    by_cases hlt : tSince - last < duration
    · simpa [hlt] using h
    · simpa [hlt] using WF_store ip tNow m h

/-! ## The three paths through the handler -/

theorem handle_absent (duration : Int) (m : Requests) (r : Request)
    (h : lookup r.ip m = none) :
    (handle duration m r).verdict = Verdict.Allow ∧
    (handle duration m r).requests = store r.ip r.tNow m := by
  unfold handle handler
  rw [h]
  exact ⟨rfl, rfl⟩

theorem handle_stale (duration : Int) (m : Requests) (r : Request) (last : Int)
    (h : lookup r.ip m = some last) (hge : duration ≤ r.tSince - last) :
    (handle duration m r).verdict = Verdict.Allow ∧
    (handle duration m r).requests = store r.ip r.tNow m := by
  unfold handle handler
  rw [h]
  simp [not_lt.2 hge]

theorem handle_recent (duration : Int) (m : Requests) (r : Request) (last : Int)
    (h : lookup r.ip m = some last) (hlt : r.tSince - last < duration) :
    (handle duration m r).verdict = Verdict.Reject ∧
    (handle duration m r).requests = m := by
  unfold handle handler
  rw [h]
  simp [hlt]

theorem handle_requests_cases (duration : Int) (m : Requests) (r : Request) :
    ((handle duration m r).verdict = Verdict.Reject ∧ (handle duration m r).requests = m) ∨
    ((handle duration m r).verdict = Verdict.Allow ∧
      (handle duration m r).requests = store r.ip r.tNow m) := by
  cases hl : lookup r.ip m with
  | none => exact Or.inr (handle_absent duration m r hl)
  | some last =>
    by_cases hlt : r.tSince - last < duration
    · exact Or.inl (handle_recent duration m r last hl hlt)
    · exact Or.inr (handle_stale duration m r last hl (not_lt.1 hlt))

theorem handle_lookup_other (duration : Int) (m : Requests) (r : Request) (k : String)
    (hk : k ≠ r.ip) : lookup k (handle duration m r).requests = lookup k m := by
  rcases handle_requests_cases duration m r with h | h
  · rw [h.2]
  · rw [h.2, lookup_store_ne _ _ _ _ hk]

theorem handle_congr (duration : Int) (m m' : Requests) (r : Request)
    (h : lookup r.ip m = lookup r.ip m') :
    (handle duration m r).verdict = (handle duration m' r).verdict ∧
    lookup r.ip (handle duration m r).requests
      = lookup r.ip (handle duration m' r).requests := by
  cases hl : lookup r.ip m with
  | none =>
    have hl' : lookup r.ip m' = none := by rw [← h, hl]
    have h1 := handle_absent duration m r hl
    have h2 := handle_absent duration m' r hl'
    rw [h1.1, h2.1, h1.2, h2.2, lookup_store_self, lookup_store_self]
    exact ⟨rfl, rfl⟩
  | some last =>
    have hl' : lookup r.ip m' = some last := by rw [← h, hl]
    by_cases hlt : r.tSince - last < duration
    · have h1 := handle_recent duration m r last hl hlt
      have h2 := handle_recent duration m' r last hl' hlt
      rw [h1.1, h2.1, h1.2, h2.2]
      exact ⟨rfl, h⟩
    · have h1 := handle_stale duration m r last hl (not_lt.1 hlt)
      have h2 := handle_stale duration m' r last hl' (not_lt.1 hlt)
      rw [h1.1, h2.1, h1.2, h2.2, lookup_store_self, lookup_store_self]
      exact ⟨rfl, rfl⟩

theorem WF_handle (duration : Int) (m : Requests) (r : Request) (h : WF m) :
    WF (handle duration m r).requests :=
  WF_handler duration r.ip r.tSince r.tNow m Context.fresh h

theorem retries_rejected (duration : Int) (ip : String) (t0 : Int) (rs : List Request)
    (m : Requests) (hm : lookup ip m = some t0)
    (hrs : ∀ r ∈ rs, r.ip = ip ∧ r.tSince < t0 + duration) :
    verdicts duration m rs = List.replicate rs.length Verdict.Reject ∧
    serve duration m rs = m := by
  induction rs with
  | nil => exact ⟨rfl, rfl⟩
  | cons r rest ih =>
    have hr := hrs r (List.mem_cons_self r rest)
    have hl : lookup r.ip m = some t0 := by rw [hr.1]; exact hm
    have hrej := handle_recent duration m r t0 hl (by linarith [hr.2])
    have ih2 := ih (fun x hx => hrs x (List.mem_cons_of_mem r hx))
    refine ⟨?_, ?_⟩
    · simp only [verdicts, hrej.1, hrej.2, ih2.1, List.length_cons, List.replicate_succ]
    · simp only [serve, hrej.2, ih2.2]

theorem verdictsFor_eq_verdicts_filter (duration : Int) (b : String) (tr : List Request)
    (m m' : Requests) (h : lookup b m = lookup b m') :
    verdictsFor duration b m tr
      = verdicts duration m' (tr.filter (fun r => decide (r.ip = b))) := by
  induction tr generalizing m m' with
  | nil => rfl
  | cons r rest ih =>
    by_cases hr : r.ip = b
    · have hc := handle_congr duration m m' r (by rw [hr]; exact h)
      rw [hr] at hc
      simp only [verdictsFor, hr, if_true, List.filter_cons, decide_True, verdicts]
      rw [hc.1, ih _ _ hc.2]
    · simp only [verdictsFor, hr, if_false, List.filter_cons, decide_False]
      apply ih
      rw [handle_lookup_other duration m r b (fun hb => hr hb.symm)]
      exact h

theorem same_instant_rejected (duration : Int) (hD : 0 < duration) (ip : String)
    (t : Int) (n : Nat) (m : Requests) (hm : lookup ip m = some t) :
    verdicts duration m (List.replicate n ⟨ip, t, t⟩)
      = List.replicate n Verdict.Reject := by
  have h := retries_rejected duration ip t (List.replicate n ⟨ip, t, t⟩) m hm
    (fun r hr => by
      rw [List.eq_of_mem_replicate hr]
      exact ⟨rfl, by simp only; linarith⟩)
  rw [h.1, List.length_replicate]

theorem store_absent (ip : String) (t : Int) (m : Requests) (h : lookup ip m = none) :
    store ip t m = m ++ [(ip, t)] := by
  induction m with
  | nil => rfl
  | cons e rest ih =>
    obtain ⟨k, v⟩ := e
    by_cases h1 : k = ip
    · simp [lookup, h1] at h
    · simp only [lookup, h1, if_false] at h
      simp [store, h1, ih h]

theorem WF_serve (duration : Int) (rs : List Request) (m : Requests) (h : WF m) :
    WF (serve duration m rs) := by
  induction rs generalizing m with
  | nil => exact h
  | cons r rest ih => exact ih _ (WF_handle duration m r h)

theorem serve_new_clients (duration : Int) (rs : List Request) (m : Requests)
    (hnew : ∀ r ∈ rs, lookup r.ip m = none) (hnd : (rs.map Request.ip).Nodup) :
    verdicts duration m rs = List.replicate rs.length Verdict.Allow ∧
    serve duration m rs = m ++ rs.map (fun r => (r.ip, r.tNow)) := by
  induction rs generalizing m with
  | nil => simp [verdicts, serve]
  | cons r rest ih =>
    rw [List.map_cons, List.nodup_cons] at hnd
    have hr := handle_absent duration m r (hnew r (List.mem_cons_self r rest))
    have hnew2 : ∀ x ∈ rest, lookup x.ip (store r.ip r.tNow m) = none := by
      intro x hx
      have hne : x.ip ≠ r.ip := by
        intro he
        exact hnd.1 (List.mem_map.2 ⟨x, hx, he⟩)
      rw [lookup_store_ne _ _ _ _ hne]
      exact hnew x (List.mem_cons_of_mem r hx)
    have ih2 := ih (store r.ip r.tNow m) hnew2 hnd.2
    refine ⟨?_, ?_⟩
    · simp only [verdicts, hr.1, hr.2, ih2.1, List.length_cons, List.replicate_succ]
    · simp only [serve, hr.2, ih2.2]
      rw [store_absent _ _ _ (hnew r (List.mem_cons_self r rest))]
      simp

theorem startCleanup_started (duration : Int) (s : Limiter)
    (h : s.cleanupStarted = true) : startCleanup duration s = s := by
  simp [startCleanup, h]

theorem setup_started (ds : List Int) (s : Limiter) (h : s.cleanupStarted = true) :
    setup ds s = s := by
  induction ds with
  | nil => rfl
  | cons d rest ih =>
    simp only [setup, List.foldl_cons, RateLimit] at ih ⊢
    rw [startCleanup_started d s h]
    exact ih

/-! ## Spacing of admitted requests along a trace -/

theorem handle_allow_of_entry (duration : Int) (m : Requests) (r : Request) (v : Int)
    (h : (handle duration m r).verdict = Verdict.Allow) (hl : lookup r.ip m = some v) :
    duration ≤ r.tSince - v := by
  by_contra hlt
  have := (handle_recent duration m r v hl (not_le.1 hlt)).1
  rw [h] at this
  cases this

theorem lookup_cleanupTick_some (duration now : Int) (m : Requests) (h : WF m)
    (k : String) (v : Int) (hl : lookup k (cleanupTick duration now m) = some v) :
    lookup k m = some v := by
  rw [lookup_cleanupTick duration now m h k] at hl
  cases hm : lookup k m with
  | none => rw [hm] at hl; simp [Option.filter] at hl
  | some last =>
    rw [hm] at hl
    by_cases hle : now - last ≤ duration
    · simpa [Option.filter, hle] using hl
    · simp [Option.filter, hle] at hl

theorem lookup_cleanupTick_kept (duration now : Int) (m : Requests) (h : WF m)
    (k : String) (v : Int) (hl : lookup k m = some v) (hle : now - v ≤ duration) :
    lookup k (cleanupTick duration now m) = some v := by
  rw [lookup_cleanupTick duration now m h k, hl]
  simp [Option.filter, hle]

theorem spacing_from (duration : Int) (tr : List Event) :
    ∀ (m : Requests) (lo : Int), WF m →
      (∀ k v, lookup k m = some v → v ≤ lo) → timed lo tr = true →
      (∀ y ∈ admitted duration duration m tr,
        lo ≤ y.tSince ∧ y.tSince ≤ y.tNow ∧
          ∀ v, lookup y.ip m = some v → duration ≤ y.tSince - v) ∧
      (admitted duration duration m tr).Pairwise
        (fun x y => x.ip = y.ip → duration ≤ y.tSince - x.tNow) := by
  induction tr with
  | nil =>
    intro m lo _ _ _
    simp [admitted]
  | cons e es ih =>
    intro m lo hwf hinv ht
    cases e with
    | request r =>
      simp only [timed, Bool.and_eq_true, decide_eq_true_eq] at ht
      obtain ⟨⟨hlo, hrr⟩, hes⟩ := ht
      rcases handle_requests_cases duration m r with ⟨hv, hreq⟩ | ⟨hv, hreq⟩
      · have hadm : admitted duration duration m (Event.request r :: es)
            = admitted duration duration m es := by
          simp [admitted, hv, hreq]
        rw [hadm]
        have ih2 := ih m r.tNow hwf (fun k v hk => by linarith [hinv k v hk]) hes
        refine ⟨fun y hy => ?_, ih2.2⟩
        have hy2 := ih2.1 y hy
        exact ⟨by linarith [hy2.1], hy2.2.1, hy2.2.2⟩
      · have hadm : admitted duration duration m (Event.request r :: es)
            = r :: admitted duration duration (store r.ip r.tNow m) es := by
          simp [admitted, hv, hreq]
        rw [hadm]
        have hinv2 : ∀ k v, lookup k (store r.ip r.tNow m) = some v → v ≤ r.tNow := by
          intro k v hk
          by_cases hkr : k = r.ip
          · rw [hkr, lookup_store_self] at hk
            cases hk
            exact le_refl _
          · rw [lookup_store_ne _ _ _ _ hkr] at hk
            linarith [hinv k v hk]
        have ih2 := ih (store r.ip r.tNow m) r.tNow (WF_store _ _ _ hwf) hinv2 hes
        refine ⟨fun y hy => ?_, ?_⟩
        · rcases List.mem_cons.1 hy with hyr | hyr
          · subst hyr
            exact ⟨hlo, hrr, fun v hl => handle_allow_of_entry duration m y v hv hl⟩
          · have hy2 := ih2.1 y hyr
            refine ⟨by linarith [hy2.1], hy2.2.1, fun v hl => ?_⟩
            by_cases hkr : y.ip = r.ip
            · have h1 := hy2.2.2 r.tNow (by rw [hkr, lookup_store_self])
              have h2 := hinv y.ip v hl
              linarith
            · exact hy2.2.2 v (by rw [lookup_store_ne _ _ _ _ hkr]; exact hl)
        · rw [List.pairwise_cons]
          refine ⟨fun y hy hip => ?_, ih2.2⟩
          exact (ih2.1 y hy).2.2 r.tNow (by rw [← hip, lookup_store_self])
    | tick now =>
      simp only [timed, Bool.and_eq_true, decide_eq_true_eq] at ht
      obtain ⟨hlo, hes⟩ := ht
      have hadm : admitted duration duration m (Event.tick now :: es)
          = admitted duration duration (cleanupTick duration now m) es := by
        simp [admitted]
      rw [hadm]
      have hinv2 : ∀ k v, lookup k (cleanupTick duration now m) = some v → v ≤ now := by
        intro k v hk
        linarith [hinv k v (lookup_cleanupTick_some duration now m hwf k v hk)]
      have ih2 := ih (cleanupTick duration now m) now (WF_cleanupTick _ _ _ hwf) hinv2 hes
      refine ⟨fun y hy => ?_, ih2.2⟩
      have hy2 := ih2.1 y hy
      refine ⟨by linarith [hy2.1], hy2.2.1, fun v hl => ?_⟩
      by_cases hle : now - v ≤ duration
      · exact hy2.2.2 v (lookup_cleanupTick_kept duration now m hwf y.ip v hl hle)
      · linarith [hy2.1]

/-! ## Entries along a trace -/

theorem WF_step (dReq dTick : Int) (m : Requests) (e : Event) (h : WF m) :
    WF (step dReq dTick m e) := by
  cases e with
  | request r => exact WF_handle dReq m r h
  | tick now => exact WF_cleanupTick dTick now m h

theorem WF_exec (dReq dTick : Int) (tr : List Event) (m : Requests) (h : WF m) :
    WF (exec dReq dTick m tr) := by
  induction tr generalizing m with
  | nil => exact h
  | cons e es ih => exact ih _ (WF_step dReq dTick m e h)

theorem mem_store (ip : String) (t : Int) (m : Requests) (e : String × Int)
    (h : e ∈ store ip t m) : e = (ip, t) ∨ e ∈ m := by
  induction m with
  | nil =>
    simp only [store, List.mem_singleton] at h
    exact Or.inl h
  | cons x rest ih =>
    obtain ⟨k, v⟩ := x
    by_cases h1 : k = ip
    · simp only [store, h1, if_true, List.mem_cons] at h
      rcases h with h | h
      · exact Or.inl h
      · exact Or.inr (List.mem_cons_of_mem _ h)
    · simp only [store, h1, if_false, List.mem_cons] at h
      rcases h with h | h
      · exact Or.inr (by rw [h]; exact List.mem_cons_self _ _)
      · rcases ih h with h2 | h2
        · exact Or.inl h2
        · exact Or.inr (List.mem_cons_of_mem _ h2)

theorem mem_of_mem_cleanupTick (duration now : Int) (m : Requests) (e : String × Int)
    (h : e ∈ cleanupTick duration now m) : e ∈ m := by
  unfold cleanupTick at h
  rw [cleanupLoop_eq_filter] at h
  exact (List.mem_filter.1 h).1

theorem exec_entries (dReq dTick : Int) (tr : List Event) :
    ∀ (m : Requests) (e : String × Int), e ∈ exec dReq dTick m tr →
      e ∈ m ∨ ∃ r ∈ admitted dReq dTick m tr, (r.ip, r.tNow) = e := by
  induction tr with
  | nil =>
    intro m e he
    exact Or.inl he
  | cons ev es ih =>
    intro m e he
    cases ev with
    | request r =>
      simp only [exec, step] at he
      rcases handle_requests_cases dReq m r with ⟨hv, hreq⟩ | ⟨hv, hreq⟩
      · have hadm : admitted dReq dTick m (Event.request r :: es)
            = admitted dReq dTick m es := by
          simp [admitted, hv, hreq]
        rw [hadm]
        rw [hreq] at he
        exact ih m e he
      · have hadm : admitted dReq dTick m (Event.request r :: es)
            = r :: admitted dReq dTick (store r.ip r.tNow m) es := by
          simp [admitted, hv, hreq]
        rw [hadm]
        rw [hreq] at he
        rcases ih _ e he with h1 | ⟨x, hx, hxe⟩
        · rcases mem_store _ _ _ _ h1 with h2 | h2
          · exact Or.inr ⟨r, List.mem_cons_self _ _, h2.symm⟩
          · exact Or.inl h2
        · exact Or.inr ⟨x, List.mem_cons_of_mem _ hx, hxe⟩
    | tick now =>
      simp only [exec, step] at he
      have hadm : admitted dReq dTick m (Event.tick now :: es)
          = admitted dReq dTick (cleanupTick dTick now m) es := by
        simp [admitted]
      rw [hadm]
      rcases ih _ e he with h1 | h1
      · exact Or.inl (mem_of_mem_cleanupTick dTick now m e h1)
      · exact Or.inr h1

theorem keys_handle (duration : Int) (m : Requests) (r : Request) (k : String) :
    k ∈ (handle duration m r).requests.map Prod.fst ↔
      k ∈ m.map Prod.fst ∨ (k = r.ip ∧ (handle duration m r).verdict = Verdict.Allow) := by
  rcases handle_requests_cases duration m r with ⟨hv, hreq⟩ | ⟨hv, hreq⟩
  · rw [hreq, hv]
    simp
  · rw [hreq, hv, keys_store]
    simp [or_comm]

/-! ## Ticks do not change verdicts -/

theorem lookup_cleanupTick_none (duration now : Int) (m : Requests) (h : WF m)
    (k : String) (hl : lookup k m = none) :
    lookup k (cleanupTick duration now m) = none := by
  rw [lookup_cleanupTick duration now m h k, hl]
  rfl

theorem lookup_cleanupTick_stale (duration now : Int) (m : Requests) (h : WF m)
    (k : String) (v : Int) (hl : lookup k m = some v) (hgt : now - v > duration) :
    lookup k (cleanupTick duration now m) = none := by
  rw [lookup_cleanupTick duration now m h k, hl]
  simp [Option.filter, not_le.2 hgt]

theorem handle_swept (duration : Int) (ms mf : Requests) (r : Request) (lo : Int)
    (hlo : lo ≤ r.tSince)
    (h : lookup r.ip ms = lookup r.ip mf ∨
      (lookup r.ip ms = none ∧ ∃ v, lookup r.ip mf = some v ∧ lo - v > duration)) :
    (handle duration ms r).verdict = (handle duration mf r).verdict ∧
    lookup r.ip (handle duration ms r).requests
      = lookup r.ip (handle duration mf r).requests := by
  rcases h with h | ⟨hn, v, hv, hgt⟩
  · exact handle_congr duration ms mf r h
  · have h1 := handle_absent duration ms r hn
    have h2 := handle_stale duration mf r v hv (by linarith)
    rw [h1.1, h2.1, h1.2, h2.2, lookup_store_self, lookup_store_self]
    exact ⟨rfl, rfl⟩

theorem traceVerdicts_swept (duration : Int) (tr : List Event) :
    ∀ (ms mf : Requests) (lo : Int), WF ms →
      (∀ k, lookup k ms = lookup k mf ∨
        (lookup k ms = none ∧ ∃ v, lookup k mf = some v ∧ lo - v > duration)) →
      timed lo tr = true →
      traceVerdicts duration duration ms tr = verdicts duration mf (requestsOf tr) := by
  induction tr with
  | nil =>
    intro ms mf lo _ _ _
    rfl
  | cons e es ih =>
    intro ms mf lo hwf hrel ht
    cases e with
    | request r =>
      simp only [timed, Bool.and_eq_true, decide_eq_true_eq] at ht
      obtain ⟨⟨hlo, hrr⟩, hes⟩ := ht
      have hstep := handle_swept duration ms mf r lo hlo (hrel r.ip)
      simp only [traceVerdicts, requestsOf, verdicts]
      rw [hstep.1]
      congr 1
      apply ih _ _ r.tNow (WF_handle duration ms r hwf) _ hes
      intro k
      by_cases hk : k = r.ip
      · left
        rw [hk]
        exact hstep.2
      · rw [handle_lookup_other duration ms r k hk, handle_lookup_other duration mf r k hk]
        rcases hrel k with h | ⟨hn, v, hv, hgt⟩
        · exact Or.inl h
        · exact Or.inr ⟨hn, v, hv, by linarith⟩
    | tick now =>
      simp only [timed, Bool.and_eq_true, decide_eq_true_eq] at ht
      obtain ⟨hlo, hes⟩ := ht
      simp only [traceVerdicts, requestsOf]
      apply ih _ _ now (WF_cleanupTick duration now ms hwf) _ hes
      intro k
      rcases hrel k with h | ⟨hn, v, hv, hgt⟩
      · cases hf : lookup k mf with
        | none =>
          left
          rw [hf] at h
          exact lookup_cleanupTick_none duration now ms hwf k h
        | some v =>
          rw [hf] at h
          by_cases hle : now - v ≤ duration
          · left
            exact lookup_cleanupTick_kept duration now ms hwf k v h hle
          · right
            exact ⟨lookup_cleanupTick_stale duration now ms hwf k v h (not_le.1 hle),
              v, rfl, not_le.1 hle⟩
      · right
        exact ⟨lookup_cleanupTick_none duration now ms hwf k hn, v, hv, by linarith⟩

theorem reject_iff_recent (duration : Int) (ip : String) (tSince tNow : Int)
    (m : Requests) (c : Context) :
    (handler duration ip tSince tNow m c).verdict = Verdict.Reject ↔
      ∃ last, lookup ip m = some last ∧ tSince - last < duration := by
  unfold handler
  cases hl : lookup ip m with
  | none => simp
  | some last =>
    by_cases hlt : tSince - last < duration
    · simp [hlt]
    · simp [hlt]

/-! ## The admission check -/

/-- C1. The handler admits a request exactly when the client has no entry or
the reading `tSince` is at least `duration` after the stored instant, and
rejects it exactly when there is an entry less than `duration` old; an entry
exactly `duration` old is admitted. -/
theorem handler_verdict (duration : Int) (ip : String) (tSince tNow : Int)
    (m : Requests) (c : Context) :
    ((handler duration ip tSince tNow m c).verdict = Verdict.Allow ↔
      (lookup ip m = none ∨ ∃ last, lookup ip m = some last ∧ duration ≤ tSince - last)) ∧
    ((handler duration ip tSince tNow m c).verdict = Verdict.Reject ↔
      ∃ last, lookup ip m = some last ∧ tSince - last < duration) ∧
    (∀ last : Int,
      (handler duration ip (last + duration) tNow (store ip last m) c).verdict
        = Verdict.Allow) := by
  refine ⟨?_, ?_, ?_⟩
  · unfold handler
    cases hl : lookup ip m with
    | none => simp
    | some last =>
      by_cases hlt : tSince - last < duration
      · simp [hlt]
      · simp [hlt, not_lt.1 hlt]
  · unfold handler
    cases hl : lookup ip m with
    | none => simp
    | some last =>
      by_cases hlt : tSince - last < duration
      · simp [hlt]
      · simp [hlt, not_lt.1 hlt]
  · intro last
    unfold handler
    rw [lookup_store_self]
    simp

theorem allow_stores_reading (duration : Int) (ip : String) (tSince tNow : Int)
    (m : Requests) (c : Context)
    (h : (handler duration ip tSince tNow m c).verdict = Verdict.Allow) :
    lookup ip (handler duration ip tSince tNow m c).requests = some tNow := by
  unfold handler at h ⊢
  cases hl : lookup ip m with
  | none => simp [lookup_store_self]
  | some last =>
    rw [hl] at h
    by_cases hlt : tSince - last < duration
    · simp [hlt] at h
    · simp [hlt, lookup_store_self]

/-- C2. Over every trace of requests and reclamation ticks for one duration,
with non-decreasing clock readings and started on the empty map, any two
admitted requests of the same client are at least `duration` apart: the later
one is decided (and hence recorded) no sooner than `duration` after the
instant recorded for the earlier one. -/
theorem minimum_spacing (duration lo : Int) (tr : List Event)
    (ht : timed lo tr = true) :
    (admitted duration duration [] tr).Pairwise
      (fun x y => x.ip = y.ip →
        duration ≤ y.tSince - x.tNow ∧ duration ≤ y.tNow - x.tNow ∧
        duration ≤ y.tSince - x.tSince) := by
  have h := spacing_from duration tr [] lo (by simp [WF])
    (fun k v hk => by simp [lookup] at hk) ht
  have hboth : (admitted duration duration [] tr).Pairwise
      (fun x y => (x.tSince ≤ x.tNow ∧ y.tSince ≤ y.tNow) ∧
        (x.ip = y.ip → duration ≤ y.tSince - x.tNow)) := by
    rw [List.pairwise_and_iff]
    refine ⟨?_, h.2⟩
    exact List.pairwise_of_forall_mem_list
      (fun x hx y hy => ⟨(h.1 x hx).2.1, (h.1 y hy).2.1⟩)
  refine hboth.imp ?_
  intro x y hxy hip
  have := hxy.2 hip
  exact ⟨this, by linarith [hxy.1.2], by linarith [hxy.1.1]⟩

theorem minimum_spacing_witness :
    timed 0 [Event.request ⟨"a", 0, 1⟩, Event.request ⟨"a", 5, 5⟩, Event.tick 12,
        Event.request ⟨"a", 12, 13⟩, Event.request ⟨"b", 14, 14⟩,
        Event.request ⟨"a", 30, 31⟩] = true ∧
    (admitted 10 10 [] [Event.request ⟨"a", 0, 1⟩, Event.request ⟨"a", 5, 5⟩,
        Event.tick 12, Event.request ⟨"a", 12, 13⟩, Event.request ⟨"b", 14, 14⟩,
        Event.request ⟨"a", 30, 31⟩]).Pairwise
      (fun x y => x.ip = y.ip →
        (10 : Int) ≤ y.tSince - x.tNow ∧ 10 ≤ y.tNow - x.tNow ∧
        10 ≤ y.tSince - x.tSince) :=
  ⟨by decide,
    minimum_spacing 10 0
      [Event.request ⟨"a", 0, 1⟩, Event.request ⟨"a", 5, 5⟩, Event.tick 12,
        Event.request ⟨"a", 12, 13⟩, Event.request ⟨"b", 14, 14⟩,
        Event.request ⟨"a", 30, 31⟩]
      (by decide)⟩

/-- C3. A rejected request leaves the whole map as it was; in particular the
entry of the rejected client keeps its instant. -/
theorem handler_reject_unchanged (duration : Int) (ip : String) (tSince tNow : Int)
    (m : Requests) (c : Context)
    (h : (handler duration ip tSince tNow m c).verdict = Verdict.Reject) :
    (handler duration ip tSince tNow m c).requests = m ∧
    lookup ip (handler duration ip tSince tNow m c).requests = lookup ip m := by
  have key : (handler duration ip tSince tNow m c).requests = m := by
    unfold handler at h ⊢
    cases hl : lookup ip m with
    | none => rw [hl] at h; simp at h
    | some last =>
      rw [hl] at h
      by_cases hlt : tSince - last < duration
      · simp [hlt]
      · simp [hlt] at h
  exact ⟨key, by rw [key]⟩

theorem handler_reject_unchanged_witness :
    (handler 10 "a" 5 6 [("b", 1), ("a", 0)] Context.fresh).verdict = Verdict.Reject ∧
    (handler 10 "a" 5 6 [("b", 1), ("a", 0)] Context.fresh).requests = [("b", 1), ("a", 0)] ∧
    lookup "a" (handler 10 "a" 5 6 [("b", 1), ("a", 0)] Context.fresh).requests
      = lookup "a" [("b", 1), ("a", 0)] :=
  ⟨by decide, handler_reject_unchanged 10 "a" 5 6 [("b", 1), ("a", 0)] Context.fresh (by decide)⟩

/-- C4, as stated, fails: the instant recorded on admission is the reading of
`time.Now()` on line 62, not the reading of `time.Since` on line 54 against
which the decision was made. -/
theorem handler_records_decision_instant_false :
    ¬ (∀ (duration : Int) (ip : String) (tSince tNow : Int) (m : Requests) (c : Context),
        (handler duration ip tSince tNow m c).verdict = Verdict.Allow →
        lookup ip (handler duration ip tSince tNow m c).requests = some tSince) := by
  intro h
  have h1 := h 10 "a" 10 11 [("a", 0)] Context.fresh (by decide)
  revert h1
  decide

/-- C4, amended. On admission the map holds for the client the reading `tNow`
of `time.Now()` on line 62, whether the client was absent or stale before;
this is the decision reading `tSince` when the two readings coincide. -/
theorem handler_allow_records_tNow (duration : Int) (ip : String) (tSince tNow : Int)
    (m : Requests) (c : Context)
    (h : (handler duration ip tSince tNow m c).verdict = Verdict.Allow) :
    lookup ip (handler duration ip tSince tNow m c).requests = some tNow ∧
    (handler duration ip tSince tNow m c).requests = store ip tNow m ∧
    lookup ip (handler duration ip tSince tSince m c).requests = some tSince := by
  have hreq : (handler duration ip tSince tNow m c).requests = store ip tNow m := by
    unfold handler at h ⊢
    cases hl : lookup ip m with
    | none => simp
    | some last =>
      rw [hl] at h
      by_cases hlt : tSince - last < duration
      · simp [hlt] at h
      · simp [hlt]
  have hreq2 : (handler duration ip tSince tSince m c).requests = store ip tSince m := by
    unfold handler at h ⊢
    cases hl : lookup ip m with
    | none => simp
    | some last =>
      rw [hl] at h
      by_cases hlt : tSince - last < duration
      · simp [hlt] at h
      · simp [hlt]
  refine ⟨?_, hreq, ?_⟩
  · rw [hreq, lookup_store_self]
  · rw [hreq2, lookup_store_self]

theorem handler_allow_records_tNow_witness :
    (handler 10 "a" 10 11 [("a", 0)] Context.fresh).verdict = Verdict.Allow ∧
    lookup "a" (handler 10 "a" 10 11 [("a", 0)] Context.fresh).requests = some 11 ∧
    (handler 10 "a" 10 11 [("a", 0)] Context.fresh).requests = store "a" 11 [("a", 0)] ∧
    lookup "a" (handler 10 "a" 10 10 [("a", 0)] Context.fresh).requests = some 10 :=
  ⟨by decide, handler_allow_records_tNow 10 "a" 10 11 [("a", 0)] Context.fresh (by decide)⟩

/-- C5. Once a client was admitted with recorded instant `t0`, any number of
further attempts of that client read before `t0 + duration` are all rejected
and leave the map untouched, and a request read at any `t` with
`t0 + duration ≤ t` is admitted: the window is anchored at the last admitted
request, not at the last attempt. -/
theorem rejection_does_not_extend_window (duration : Int) (ip : String)
    (m0 : Requests) (a0 t0 : Int) (attempts : List Request) (t t' : Int)
    (hadm : (handle duration m0 ⟨ip, a0, t0⟩).verdict = Verdict.Allow)
    (hatt : ∀ r ∈ attempts, r.ip = ip ∧ t0 ≤ r.tSince ∧ r.tSince < t0 + duration)
    (ht : t0 + duration ≤ t) :
    verdicts duration (handle duration m0 ⟨ip, a0, t0⟩).requests attempts
      = List.replicate attempts.length Verdict.Reject ∧
    serve duration (handle duration m0 ⟨ip, a0, t0⟩).requests attempts
      = (handle duration m0 ⟨ip, a0, t0⟩).requests ∧
    (handle duration
      (serve duration (handle duration m0 ⟨ip, a0, t0⟩).requests attempts)
      ⟨ip, t, t'⟩).verdict = Verdict.Allow ∧
    (handle duration
      (serve duration (handle duration m0 ⟨ip, a0, t0⟩).requests attempts)
      ⟨ip, t0 + duration, t'⟩).verdict = Verdict.Allow := by
  have hrec : lookup ip (handle duration m0 ⟨ip, a0, t0⟩).requests = some t0 :=
    (allow_stores_reading duration ip a0 t0 m0 Context.fresh hadm)
  have hrej := retries_rejected duration ip t0 attempts _ hrec
    (fun r hr => ⟨(hatt r hr).1, (hatt r hr).2.2⟩)
  refine ⟨hrej.1, hrej.2, ?_, ?_⟩
  · rw [hrej.2]
    exact (handle_stale duration _ ⟨ip, t, t'⟩ t0 hrec (by simp only; linarith)).1
  · rw [hrej.2]
    exact (handle_stale duration _ ⟨ip, t0 + duration, t'⟩ t0 hrec (by simp only; linarith)).1

theorem rejection_does_not_extend_window_witness :
    (handle 10 [] ⟨"c", 0, 0⟩).verdict = Verdict.Allow ∧
    (∀ r ∈ [Request.mk "c" 1 1, Request.mk "c" 5 6, Request.mk "c" 9 9],
      r.ip = "c" ∧ 0 ≤ r.tSince ∧ r.tSince < 0 + 10) ∧
    (0 : Int) + 10 ≤ 10 ∧
    (verdicts 10 (handle 10 [] ⟨"c", 0, 0⟩).requests
        [Request.mk "c" 1 1, Request.mk "c" 5 6, Request.mk "c" 9 9]
      = List.replicate
          [Request.mk "c" 1 1, Request.mk "c" 5 6, Request.mk "c" 9 9].length
          Verdict.Reject ∧
    serve 10 (handle 10 [] ⟨"c", 0, 0⟩).requests
        [Request.mk "c" 1 1, Request.mk "c" 5 6, Request.mk "c" 9 9]
      = (handle 10 [] ⟨"c", 0, 0⟩).requests ∧
    (handle 10
      (serve 10 (handle 10 [] ⟨"c", 0, 0⟩).requests
        [Request.mk "c" 1 1, Request.mk "c" 5 6, Request.mk "c" 9 9])
      ⟨"c", 10, 12⟩).verdict = Verdict.Allow ∧
    (handle 10
      (serve 10 (handle 10 [] ⟨"c", 0, 0⟩).requests
        [Request.mk "c" 1 1, Request.mk "c" 5 6, Request.mk "c" 9 9])
      ⟨"c", 0 + 10, 12⟩).verdict = Verdict.Allow) :=
  ⟨by decide, by decide, by decide,
    rejection_does_not_extend_window 10 "c" [] 0 0
      [Request.mk "c" 1 1, Request.mk "c" 5 6, Request.mk "c" 9 9] 10 12
      (by decide) (by decide) (by decide)⟩

/-- C6. For a positive duration, `N ≥ 1` requests of one client read at the
same instant `t`, served one after another on a map where the client is
absent or at least `duration` old, get exactly one `Allow`, the first served,
and `N - 1` times `Reject`. -/
theorem single_flight_admission (duration : Int) (ip : String) (t : Int) (N : Nat)
    (m : Requests) (hD : 0 < duration) (hN : 1 ≤ N)
    (hm : lookup ip m = none ∨ ∃ last, lookup ip m = some last ∧ duration ≤ t - last) :
    verdicts duration m (List.replicate N ⟨ip, t, t⟩)
      = Verdict.Allow :: List.replicate (N - 1) Verdict.Reject ∧
    (verdicts duration m (List.replicate N ⟨ip, t, t⟩)).count Verdict.Allow = 1 ∧
    (verdicts duration m (List.replicate N ⟨ip, t, t⟩)).count Verdict.Reject = N - 1 := by
  obtain ⟨n, rfl⟩ : ∃ n, N = n + 1 := ⟨N - 1, by omega⟩
  have hfirst : (handle duration m ⟨ip, t, t⟩).verdict = Verdict.Allow ∧
      (handle duration m ⟨ip, t, t⟩).requests = store ip t m := by
    rcases hm with h | ⟨last, h, hge⟩
    · exact handle_absent duration m ⟨ip, t, t⟩ h
    · exact handle_stale duration m ⟨ip, t, t⟩ last h hge
  have hrest := same_instant_rejected duration hD ip t n (store ip t m)
    (lookup_store_self ip t m)
  have key : verdicts duration m (List.replicate (n + 1) ⟨ip, t, t⟩)
      = Verdict.Allow :: List.replicate n Verdict.Reject := by
    simp only [List.replicate_succ, verdicts, hfirst.1, hfirst.2, hrest]
  rw [key]
  refine ⟨by simp, ?_, ?_⟩
  · simp [List.count_cons, List.count_replicate]
  · simp [List.count_cons, List.count_replicate]

theorem single_flight_admission_witness :
    (0 : Int) < 10 ∧ 1 ≤ 4 ∧
    (lookup "c" [("c", 0)] = none ∨
      ∃ last, lookup "c" [("c", 0)] = some last ∧ (10 : Int) ≤ 25 - last) ∧
    (verdicts 10 [("c", 0)] (List.replicate 4 ⟨"c", 25, 25⟩)
      = Verdict.Allow :: List.replicate (4 - 1) Verdict.Reject ∧
    (verdicts 10 [("c", 0)] (List.replicate 4 ⟨"c", 25, 25⟩)).count Verdict.Allow = 1 ∧
    (verdicts 10 [("c", 0)] (List.replicate 4 ⟨"c", 25, 25⟩)).count Verdict.Reject
      = 4 - 1) :=
  ⟨by decide, by decide, Or.inr ⟨0, by decide, by decide⟩,
    single_flight_admission 10 "c" 25 4 [("c", 0)] (by decide) (by decide)
      (Or.inr ⟨0, by decide, by decide⟩)⟩

/-- C7. A request of client `a` leaves the entry of every other client `b` as
it was; the verdict for a request of `b` is the same on any two maps that
agree on the entry of `b`; and over two traces of requests whose requests of
`b` are the same, started on maps that agree on the entry of `b`, client `b`
receives the same verdicts. -/
theorem independence_across_clients (duration : Int) (a b : String)
    (tSince tNow : Int) (m m' : Requests) (tr tr' : List Request)
    (hab : b ≠ a) (hm : lookup b m = lookup b m')
    (htr : tr.filter (fun r => decide (r.ip = b)) = tr'.filter (fun r => decide (r.ip = b))) :
    lookup b (handle duration m ⟨a, tSince, tNow⟩).requests = lookup b m ∧
    (handle duration m ⟨b, tSince, tNow⟩).verdict
      = (handle duration m' ⟨b, tSince, tNow⟩).verdict ∧
    verdictsFor duration b m tr = verdictsFor duration b m' tr' := by
  refine ⟨?_, ?_, ?_⟩
  · exact handle_lookup_other duration m ⟨a, tSince, tNow⟩ b hab
  · exact (handle_congr duration m m' ⟨b, tSince, tNow⟩ hm).1
  · rw [verdictsFor_eq_verdicts_filter duration b tr m m rfl,
      verdictsFor_eq_verdicts_filter duration b tr' m' m hm.symm, htr]

theorem independence_across_clients_witness :
    "b" ≠ "a" ∧ lookup "b" [("a", 0), ("b", 3)] = lookup "b" [("b", 3)] ∧
    [Request.mk "a" 4 4, Request.mk "b" 5 5, Request.mk "b" 14 15].filter
        (fun r => decide (r.ip = "b"))
      = [Request.mk "b" 5 5, Request.mk "c" 6 6, Request.mk "a" 7 7,
          Request.mk "b" 14 15].filter (fun r => decide (r.ip = "b")) ∧
    (lookup "b" (handle 10 [("a", 0), ("b", 3)] ⟨"a", 20, 21⟩).requests
      = lookup "b" [("a", 0), ("b", 3)] ∧
    (handle 10 [("a", 0), ("b", 3)] ⟨"b", 20, 21⟩).verdict
      = (handle 10 [("b", 3)] ⟨"b", 20, 21⟩).verdict ∧
    verdictsFor 10 "b" [("a", 0), ("b", 3)]
        [Request.mk "a" 4 4, Request.mk "b" 5 5, Request.mk "b" 14 15]
      = verdictsFor 10 "b" [("b", 3)]
        [Request.mk "b" 5 5, Request.mk "c" 6 6, Request.mk "a" 7 7,
          Request.mk "b" 14 15]) :=
  ⟨by decide, by decide, by decide,
    independence_across_clients 10 "a" "b" 20 21 [("a", 0), ("b", 3)] [("b", 3)]
      [Request.mk "a" 4 4, Request.mk "b" 5 5, Request.mk "b" 14 15]
      [Request.mk "b" 5 5, Request.mk "c" 6 6, Request.mk "a" 7 7, Request.mk "b" 14 15]
      (by decide) (by decide) (by decide)⟩

/-! ## Reclamation -/

/-- C8. One tick at reading `now` keeps exactly the entries with
`now - lastRequest ≤ duration`, in place and with their instants, and removes
exactly those with `now - lastRequest > duration`; an entry exactly
`duration` old is kept. -/
theorem cleanupTick_exact (duration now : Int) (m : Requests) (k : String) (v : Int)
    (h : WF m) :
    cleanupTick duration now m = m.filter (fun x => decide (now - x.2 ≤ duration)) ∧
    ((k, v) ∈ cleanupTick duration now m ↔ (k, v) ∈ m ∧ now - v ≤ duration) ∧
    (lookup k (cleanupTick duration now m) = some v ↔
      lookup k m = some v ∧ now - v ≤ duration) ∧
    (lookup k (cleanupTick duration now m) = none ↔
      lookup k m = none ∨ ∃ last, lookup k m = some last ∧ now - last > duration) ∧
    lookup k (cleanupTick duration (v + duration) (store k v m)) = some v := by
  have hf := cleanupTick_eq_filter duration now m h
  have hl := lookup_cleanupTick duration now m h k
  refine ⟨hf, ?_, ?_, ?_, ?_⟩
  · rw [hf, List.mem_filter]
    simp
  · rw [hl]
    cases lookup k m with
    | none => simp [Option.filter]
    | some last =>
      by_cases hle : now - last ≤ duration
      · simp only [Option.filter, hle, decide_True, if_true, Option.some.injEq]
        constructor
        · intro he
          subst he
          exact ⟨rfl, hle⟩
        · intro he
          exact he.1
      · simp only [Option.filter, hle, decide_False, Option.some.injEq]
        constructor
        · intro he
          cases he
        · intro he
          exact absurd (he.1 ▸ he.2) hle
  · rw [hl]
    cases lookup k m with
    | none => simp [Option.filter]
    | some last =>
      by_cases hle : now - last ≤ duration
      · simp [Option.filter, hle]
      · simp [Option.filter, hle, not_le.1 hle]
  · rw [lookup_cleanupTick duration (v + duration) (store k v m) (WF_store k v m h) k,
      lookup_store_self]
    simp [Option.filter]

theorem cleanupTick_exact_witness :
    WF [("a", 0), ("b", 5), ("c", 6)] ∧
    (cleanupTick 10 15 [("a", 0), ("b", 5), ("c", 6)]
      = [("a", 0), ("b", 5), ("c", 6)].filter (fun x => decide (15 - x.2 ≤ 10)) ∧
    ((("b", 5) : String × Int) ∈ cleanupTick 10 15 [("a", 0), ("b", 5), ("c", 6)] ↔
      (("b", 5) : String × Int) ∈ ([("a", 0), ("b", 5), ("c", 6)] : Requests) ∧
        (15 : Int) - 5 ≤ 10) ∧
    (lookup "b" (cleanupTick 10 15 [("a", 0), ("b", 5), ("c", 6)]) = some 5 ↔
      lookup "b" [("a", 0), ("b", 5), ("c", 6)] = some 5 ∧ (15 : Int) - 5 ≤ 10) ∧
    (lookup "b" (cleanupTick 10 15 [("a", 0), ("b", 5), ("c", 6)]) = none ↔
      lookup "b" [("a", 0), ("b", 5), ("c", 6)] = none ∨
      ∃ last, lookup "b" [("a", 0), ("b", 5), ("c", 6)] = some last ∧ 15 - last > 10) ∧
    lookup "b" (cleanupTick 10 (5 + 10) (store "b" 5 [("a", 0), ("b", 5), ("c", 6)]))
      = some 5) :=
  ⟨by decide, cleanupTick_exact 10 15 [("a", 0), ("b", 5), ("c", 6)] "b" 5 (by decide)⟩

/-- C9. After `M` distinct clients were each admitted once on the empty map,
with recorded instants not after `t0`, a tick at a reading `now` with
`now - t0 > duration` leaves the map empty. -/
theorem reclamation_empties_idle_map (duration now t0 : Int) (clients : List Request)
    (hdistinct : (clients.map Request.ip).Nodup)
    (hpast : ∀ r ∈ clients, r.tNow ≤ t0)
    (hlate : now - t0 > duration) :
    verdicts duration [] clients = List.replicate clients.length Verdict.Allow ∧
    (serve duration [] clients).length = clients.length ∧
    cleanupTick duration now (serve duration [] clients) = [] := by
  have hs := serve_new_clients duration clients [] (fun r _ => rfl) hdistinct
  have hwf : WF (serve duration [] clients) :=
    WF_serve duration clients [] (by simp [WF])
  refine ⟨hs.1, ?_, ?_⟩
  · rw [hs.2]
    simp
  · rw [cleanupTick_eq_filter duration now _ hwf, List.filter_eq_nil_iff]
    intro x hx
    rw [hs.2, List.nil_append, List.mem_map] at hx
    obtain ⟨r, hr, rfl⟩ := hx
    have := hpast r hr
    simp only [decide_eq_true_eq, not_le]
    linarith

theorem reclamation_empties_idle_map_witness :
    ([Request.mk "a" 0 1, Request.mk "b" 2 2, Request.mk "c" 3 4].map Request.ip).Nodup ∧
    (∀ r ∈ [Request.mk "a" 0 1, Request.mk "b" 2 2, Request.mk "c" 3 4], r.tNow ≤ 4) ∧
    (15 : Int) - 4 > 10 ∧
    (verdicts 10 [] [Request.mk "a" 0 1, Request.mk "b" 2 2, Request.mk "c" 3 4]
      = List.replicate
          [Request.mk "a" 0 1, Request.mk "b" 2 2, Request.mk "c" 3 4].length
          Verdict.Allow ∧
    (serve 10 [] [Request.mk "a" 0 1, Request.mk "b" 2 2, Request.mk "c" 3 4]).length
      = [Request.mk "a" 0 1, Request.mk "b" 2 2, Request.mk "c" 3 4].length ∧
    cleanupTick 10 15
      (serve 10 [] [Request.mk "a" 0 1, Request.mk "b" 2 2, Request.mk "c" 3 4]) = []) :=
  ⟨by decide, by decide, by decide,
    reclamation_empties_idle_map 10 15 4
      [Request.mk "a" 0 1, Request.mk "b" 2 2, Request.mk "c" 3 4]
      (by decide) (by decide) (by decide)⟩

/-! ## Setup -/

/-- C10. From the state at process start, any `K ≥ 1` calls of `RateLimit`
(durations `d :: ds`) launch exactly one reclamation goroutine, the one of
the first call; a further call with any duration `d2` launches nothing and
changes nothing, and `startCleanup` never leaves the latch unset. -/
theorem start_once_latch (d : Int) (ds : List Int) (d2 : Int) (s : Limiter) :
    (setup (d :: ds) Limiter.init).tasks = [d] ∧
    (setup (d :: ds) Limiter.init).tasks.length = 1 ∧
    (setup (d :: ds) Limiter.init).cleanupStarted = true ∧
    (RateLimit d2 (setup (d :: ds) Limiter.init)).1 = setup (d :: ds) Limiter.init ∧
    setup (d :: ds ++ [d2]) Limiter.init = setup (d :: ds) Limiter.init ∧
    (startCleanup d2 s).cleanupStarted = true ∧
    (RateLimit d2 s).1.requests = s.requests := by
  have h1 : setup (d :: ds) Limiter.init = ⟨[], true, [d]⟩ := by
    have : setup (d :: ds) Limiter.init = setup ds ⟨[], true, [d]⟩ := by
      simp [setup, RateLimit, startCleanup, Limiter.init]
    rw [this]
    exact setup_started ds _ rfl
  have h2 : setup (d :: ds ++ [d2]) Limiter.init = ⟨[], true, [d]⟩ := by
    have : setup (d :: ds ++ [d2]) Limiter.init = setup (ds ++ [d2]) ⟨[], true, [d]⟩ := by
      simp [setup, RateLimit, startCleanup, Limiter.init]
    rw [this]
    exact setup_started _ _ rfl
  rw [h1, h2]
  refine ⟨rfl, rfl, rfl, ?_, rfl, ?_, ?_⟩
  · simp [RateLimit, startCleanup]
  · unfold startCleanup
    by_cases hs : s.cleanupStarted = true
    · simp [hs]
    · simp [hs]
  · unfold RateLimit startCleanup
    by_cases hs : s.cleanupStarted = true
    · simp [hs]
    · simp [hs]

/-! ## The response -/

/-- C11. For a request on whose context nothing was written before, the
handler leaves in exactly one of two ways.  On `Reject` the response has
status 429 and a body that is one JSON object whose only field `error` is
"Too many requests. Please try again later.", the chain is aborted and the
next handler was not called.  On `Allow` nothing was written, the chain is not
aborted, and the next handler was called exactly once. -/
theorem response_descriptor (duration : Int) (ip : String) (tSince tNow : Int)
    (m : Requests) :
    ((handler duration ip tSince tNow m Context.fresh).verdict = Verdict.Reject ∧
      (handler duration ip tSince tNow m Context.fresh).ctx.status = 429 ∧
      (handler duration ip tSince tNow m Context.fresh).ctx.written = true ∧
      (handler duration ip tSince tNow m Context.fresh).ctx.body
        = [[("error", "Too many requests. Please try again later.")]] ∧
      (handler duration ip tSince tNow m Context.fresh).ctx.aborted = true ∧
      (handler duration ip tSince tNow m Context.fresh).ctx.nextCalls = 0) ∨
    ((handler duration ip tSince tNow m Context.fresh).verdict = Verdict.Allow ∧
      (handler duration ip tSince tNow m Context.fresh).ctx.written = false ∧
      (handler duration ip tSince tNow m Context.fresh).ctx.body = [] ∧
      (handler duration ip tSince tNow m Context.fresh).ctx.aborted = false ∧
      (handler duration ip tSince tNow m Context.fresh).ctx.nextCalls = 1) := by
  unfold handler
  cases lookup ip m with
  | none =>
    right
    simp [Context.Next, Context.fresh]
  | some last =>
    by_cases hlt : tSince - last < duration
    · left
      simp [hlt, Context.JSON, Context.Abort, Context.fresh, StatusTooManyRequests,
        bodyAllowedForStatus]
    · right
      simp [hlt, Context.Next, Context.fresh]

/-- C12. Running the tick twice at the same clock reading gives the same map
as running it once. -/
theorem cleanupTick_idempotent (duration now : Int) (m : Requests) :
    cleanupTick duration now (cleanupTick duration now m) = cleanupTick duration now m := by
  have hfresh : ∀ e ∈ cleanupTick duration now m, ¬ (now - e.2 > duration) := by
    intro e he
    unfold cleanupTick at he
    rw [cleanupLoop_eq_filter, List.mem_filter] at he
    have := List.all_eq_true.1 he.2 e he.1
    simpa using this
  have h2 : cleanupTick duration now (cleanupTick duration now m)
      = (cleanupTick duration now m).filter (fun x =>
          (cleanupTick duration now m).all
            (fun e => !(decide (e.1 = x.1) && decide (now - e.2 > duration)))) := by
    conv_lhs => unfold cleanupTick
    rw [cleanupLoop_eq_filter]
    rfl
  rw [h2, List.filter_eq_self]
  intro x _
  rw [List.all_eq_true]
  intro e he
  simp [hfresh e he]

/-! ## Entries of the map -/

/-- C13. On a map, a request never removes an entry: the clients tracked
after it are those tracked before, plus the client of the request when it is
admitted.  Every step, and every trace of steps, leaves at most one entry per
client.  An entry `k ↦ v` is still present after any step unless that step is
a tick at a reading `now` with `now - v > dTick`. -/
theorem entries_removed_only_by_reclamation (dReq dTick : Int) (m : Requests)
    (r : Request) (e : Event) (tr : List Event) (k : String) (v : Int)
    (hwf : WF m) (hk : lookup k m = some v) :
    (∀ k2, k2 ∈ (handle dReq m r).requests.map Prod.fst ↔
      k2 ∈ m.map Prod.fst ∨ (k2 = r.ip ∧ (handle dReq m r).verdict = Verdict.Allow)) ∧
    (∃ v2, lookup k (handle dReq m r).requests = some v2) ∧
    WF (step dReq dTick m e) ∧ WF (exec dReq dTick m tr) ∧
    ((∃ v2, lookup k (step dReq dTick m e) = some v2) ∨
      (∃ now, e = Event.tick now ∧ now - v > dTick ∧
        lookup k (step dReq dTick m e) = none)) := by
  have hreq : ∀ r2 : Request, ∃ v2, lookup k (handle dReq m r2).requests = some v2 := by
    intro r2
    by_cases hkr : k = r2.ip
    · rcases handle_requests_cases dReq m r2 with ⟨_, hm⟩ | ⟨_, hm⟩
      · exact ⟨v, by rw [hm]; exact hk⟩
      · exact ⟨r2.tNow, by rw [hm, hkr, lookup_store_self]⟩
    · exact ⟨v, by rw [handle_lookup_other dReq m r2 k hkr]; exact hk⟩
  refine ⟨keys_handle dReq m r, hreq r, WF_step dReq dTick m e hwf,
    WF_exec dReq dTick tr m hwf, ?_⟩
  cases e with
  | request r2 => exact Or.inl (hreq r2)
  | tick now =>
    by_cases hle : now - v ≤ dTick
    · exact Or.inl ⟨v, lookup_cleanupTick_kept dTick now m hwf k v hk hle⟩
    · refine Or.inr ⟨now, rfl, not_le.1 hle, ?_⟩
      simp only [step]
      rw [lookup_cleanupTick dTick now m hwf k, hk]
      simp [Option.filter, hle]

theorem entries_removed_only_by_reclamation_witness :
    WF [("a", 0), ("b", 7)] ∧ lookup "a" [("a", 0), ("b", 7)] = some 0 ∧
    ((∀ k2, k2 ∈ (handle 10 [("a", 0), ("b", 7)] ⟨"c", 8, 9⟩).requests.map Prod.fst ↔
      k2 ∈ ([("a", 0), ("b", 7)] : Requests).map Prod.fst ∨
        (k2 = (Request.mk "c" 8 9).ip ∧
          (handle 10 [("a", 0), ("b", 7)] ⟨"c", 8, 9⟩).verdict = Verdict.Allow)) ∧
    (∃ v2, lookup "a" (handle 10 [("a", 0), ("b", 7)] ⟨"c", 8, 9⟩).requests = some v2) ∧
    WF (step 10 10 [("a", 0), ("b", 7)] (Event.tick 12)) ∧
    WF (exec 10 10 [("a", 0), ("b", 7)] [Event.request ⟨"c", 8, 9⟩, Event.tick 12]) ∧
    ((∃ v2, lookup "a" (step 10 10 [("a", 0), ("b", 7)] (Event.tick 12)) = some v2) ∨
      (∃ now, Event.tick 12 = Event.tick now ∧ now - 0 > 10 ∧
        lookup "a" (step 10 10 [("a", 0), ("b", 7)] (Event.tick 12)) = none))) :=
  ⟨by decide, by decide,
    entries_removed_only_by_reclamation 10 10 [("a", 0), ("b", 7)] ⟨"c", 8, 9⟩
      (Event.tick 12) [Event.request ⟨"c", 8, 9⟩, Event.tick 12] "a" 0
      (by decide) (by decide)⟩

/-- C14. Right after a tick at reading `now`, on the map reached by any trace
from the empty map, every entry is at most `dTick` old, and the number of
entries is at most the number of distinct clients with a request admitted in
the trace and recorded at most `dTick` before `now`. -/
theorem map_size_bounded (dReq dTick now : Int) (tr : List Event) :
    (∀ e ∈ cleanupTick dTick now (exec dReq dTick [] tr), now - e.2 ≤ dTick) ∧
    (cleanupTick dTick now (exec dReq dTick [] tr)).length ≤
      (((admitted dReq dTick [] tr).filter
        (fun r => decide (now - r.tNow ≤ dTick))).map Request.ip).dedup.length := by
  have hwf : WF (exec dReq dTick [] tr) := WF_exec dReq dTick tr [] (by simp [WF])
  have hf := cleanupTick_eq_filter dTick now _ hwf
  have hfresh : ∀ e ∈ cleanupTick dTick now (exec dReq dTick [] tr), now - e.2 ≤ dTick := by
    intro e he
    rw [hf, List.mem_filter] at he
    simpa using he.2
  refine ⟨hfresh, ?_⟩
  have hnd : ((cleanupTick dTick now (exec dReq dTick [] tr)).map Prod.fst).Nodup :=
    WF_cleanupTick dTick now _ hwf
  have hsub : (cleanupTick dTick now (exec dReq dTick [] tr)).map Prod.fst ⊆
      (((admitted dReq dTick [] tr).filter
        (fun r => decide (now - r.tNow ≤ dTick))).map Request.ip).dedup := by
    intro k hkm
    obtain ⟨e, he, rfl⟩ := List.mem_map.1 hkm
    have hold := hfresh e he
    rcases exec_entries dReq dTick tr [] e (mem_of_mem_cleanupTick dTick now _ e he)
      with h1 | ⟨r, hr, hre⟩
    · simp at h1
    · rw [List.mem_dedup, List.mem_map]
      refine ⟨r, List.mem_filter.2 ⟨hr, ?_⟩, ?_⟩
      · rw [← hre] at hold
        simpa using hold
      · rw [← hre]
  have := (List.subperm_of_subset hnd hsub).length_le
  simpa using this

/-! ## Several configured durations -/

/-- C15, as stated, fails: for a first duration that is not positive
`time.NewTicker` panics on line 28, the process ends, and no reclamation task
with that period or threshold is ever ticking. -/
theorem nonpositive_first_duration_no_task :
    ¬ (∀ D1 D2 : Int,
        (RateLimit D2 (RateLimit D1 Limiter.init).1).1.running.map Task.period = [D1]) := by
  intro h
  have h0 := h 0 10
  have hrun : (RateLimit 10 (RateLimit 0 Limiter.init).1).1.running = [] := by
    simp [RateLimit, startCleanup, Limiter.init, Limiter.running, Limiter.crashed, NewTicker]
  rw [hrun] at h0
  simp at h0

/-- C15, amended. For a positive first duration `D1`: after `RateLimit(D1)`
and then `RateLimit(D2)` from process start, the only goroutine ticking is
the one of the first call, its ticker period is `D1` and its tick deletes
exactly the entries with `now - lastRequest > D1`.  The second call leaves the
package state as the first call left it, and the handler it returns decides
with `D2`. -/
theorem first_interval_wins (D1 D2 now : Int) (m : Requests) (r : Request)
    (k : String) (v : Int) (hD1 : 0 < D1) (hwf : WF m) :
    (RateLimit D2 (RateLimit D1 Limiter.init).1).1.crashed = false ∧
    (RateLimit D2 (RateLimit D1 Limiter.init).1).1.running.map Task.period = [D1] ∧
    (RateLimit D2 (RateLimit D1 Limiter.init).1).1.running.map (fun t => t.onTick now m)
      = [cleanupTick D1 now m] ∧
    ((k, v) ∈ cleanupTick D1 now m ↔ (k, v) ∈ m ∧ ¬ (now - v > D1)) ∧
    (RateLimit D2 (RateLimit D1 Limiter.init).1).1 = (RateLimit D1 Limiter.init).1 ∧
    (RateLimit D2 (RateLimit D1 Limiter.init).1).2 = D2 ∧
    ((handle (RateLimit D2 (RateLimit D1 Limiter.init).1).2 m r).verdict = Verdict.Reject ↔
      ∃ last, lookup r.ip m = some last ∧ r.tSince - last < D2) := by
  have hst : (RateLimit D2 (RateLimit D1 Limiter.init).1).1 = ⟨[], true, [D1]⟩ := by
    simp [RateLimit, startCleanup, Limiter.init]
  have hnt : NewTicker D1 = some D1 := by
    simp [NewTicker, not_le.2 hD1]
  have hcr : (⟨[], true, [D1]⟩ : Limiter).crashed = false := by
    simp [Limiter.crashed, hnt]
  have hrun : (⟨[], true, [D1]⟩ : Limiter).running
      = [⟨D1, fun now m => cleanupTick D1 now m⟩] := by
    simp [Limiter.running, hcr, cleanupTask, hnt]
  rw [hst]
  refine ⟨hcr, by rw [hrun]; rfl, by rw [hrun]; rfl, ?_,
    by simp [RateLimit, startCleanup, Limiter.init], rfl, ?_⟩
  · rw [cleanupTick_eq_filter D1 now m hwf, List.mem_filter]
    simp
  · exact (reject_iff_recent D2 r.ip r.tSince r.tNow m Context.fresh)

theorem first_interval_wins_witness :
    (0 : Int) < 3 ∧ WF [("a", 0), ("b", 4)] ∧
    ((RateLimit 10 (RateLimit 3 Limiter.init).1).1.crashed = false ∧
    (RateLimit 10 (RateLimit 3 Limiter.init).1).1.running.map Task.period = [3] ∧
    (RateLimit 10 (RateLimit 3 Limiter.init).1).1.running.map
        (fun t => t.onTick 5 [("a", 0), ("b", 4)])
      = [cleanupTick 3 5 [("a", 0), ("b", 4)]] ∧
    ((("a", 0) : String × Int) ∈ cleanupTick 3 5 [("a", 0), ("b", 4)] ↔
      (("a", 0) : String × Int) ∈ ([("a", 0), ("b", 4)] : Requests) ∧
        ¬ ((5 : Int) - 0 > 3)) ∧
    (RateLimit 10 (RateLimit 3 Limiter.init).1).1 = (RateLimit 3 Limiter.init).1 ∧
    (RateLimit 10 (RateLimit 3 Limiter.init).1).2 = 10 ∧
    ((handle (RateLimit 10 (RateLimit 3 Limiter.init).1).2 [("a", 0), ("b", 4)]
        ⟨"b", 9, 9⟩).verdict = Verdict.Reject ↔
      ∃ last, lookup (Request.mk "b" 9 9).ip [("a", 0), ("b", 4)] = some last ∧
        (Request.mk "b" 9 9).tSince - last < 10)) :=
  ⟨by decide, by decide,
    first_interval_wins 3 10 5 [("a", 0), ("b", 4)] ⟨"b", 9, 9⟩ "a" 0
      (by decide) (by decide)⟩

/-- C16 fails on the code. With `RateLimit(1s)` called first and the handler
of a later `RateLimit(10s)` serving client "a", the goroutine of the first
call deletes the entry recorded at 0 on its tick at 2s, and the request read
at 3s is admitted: two admitted requests of one client 3s apart, under a
handler documented to admit one per 10s. Instants are in nanoseconds. -/
theorem later_middleware_spacing_fails :
    (RateLimit 10000000000 (RateLimit 1000000000 Limiter.init).1).1.tasks = [1000000000] ∧
    (RateLimit 10000000000 (RateLimit 1000000000 Limiter.init).1).2 = 10000000000 ∧
    timed 0 [Event.request ⟨"a", 0, 0⟩, Event.tick 1000000000, Event.tick 2000000000,
      Event.request ⟨"a", 3000000000, 3000000000⟩] = true ∧
    admitted 10000000000 1000000000 []
      [Event.request ⟨"a", 0, 0⟩, Event.tick 1000000000, Event.tick 2000000000,
        Event.request ⟨"a", 3000000000, 3000000000⟩]
      = [⟨"a", 0, 0⟩, ⟨"a", 3000000000, 3000000000⟩] ∧
    ¬ (admitted 10000000000 1000000000 []
      [Event.request ⟨"a", 0, 0⟩, Event.tick 1000000000, Event.tick 2000000000,
        Event.request ⟨"a", 3000000000, 3000000000⟩]).Pairwise
      (fun x y => x.ip = y.ip → (10000000000 : Int) ≤ y.tNow - x.tNow) := by
  refine ⟨by decide, by decide, by decide, by decide, ?_⟩
  have h : admitted 10000000000 1000000000 []
      [Event.request ⟨"a", 0, 0⟩, Event.tick 1000000000, Event.tick 2000000000,
        Event.request ⟨"a", 3000000000, 3000000000⟩]
      = [⟨"a", 0, 0⟩, ⟨"a", 3000000000, 3000000000⟩] := by decide
  rw [h]
  decide

/-- C17. For one duration used by the handler and by the tick, on a map and
over a trace with non-decreasing clock readings, the verdicts of the requests
are those of the same requests served with every tick left out; and the
verdict of a request read at or after `s` is the same on the map swept at `s`
as on the map itself. -/
theorem reclamation_transparent (duration lo s : Int) (m : Requests) (tr : List Event)
    (r : Request) (hwf : WF m) (ht : timed lo tr = true) (hs : s ≤ r.tSince) :
    traceVerdicts duration duration m tr = verdicts duration m (requestsOf tr) ∧
    (handle duration (cleanupTick duration s m) r).verdict = (handle duration m r).verdict := by
  refine ⟨traceVerdicts_swept duration tr m m lo hwf (fun k => Or.inl rfl) ht, ?_⟩
  apply (handle_swept duration (cleanupTick duration s m) m r s hs ?_).1
  cases hf : lookup r.ip m with
  | none => exact Or.inl (lookup_cleanupTick_none duration s m hwf r.ip hf)
  | some v =>
    by_cases hle : s - v ≤ duration
    · exact Or.inl (lookup_cleanupTick_kept duration s m hwf r.ip v hf hle)
    · exact Or.inr ⟨lookup_cleanupTick_stale duration s m hwf r.ip v hf (not_le.1 hle),
        v, rfl, not_le.1 hle⟩

theorem reclamation_transparent_witness :
    WF [("a", 0), ("b", 7)] ∧
    timed 8 [Event.request ⟨"a", 8, 8⟩, Event.tick 12, Event.request ⟨"a", 13, 14⟩,
      Event.tick 25, Event.request ⟨"b", 26, 26⟩, Event.request ⟨"a", 27, 27⟩] = true ∧
    (12 : Int) ≤ (Request.mk "a" 13 14).tSince ∧
    (traceVerdicts 10 10 [("a", 0), ("b", 7)]
        [Event.request ⟨"a", 8, 8⟩, Event.tick 12, Event.request ⟨"a", 13, 14⟩,
          Event.tick 25, Event.request ⟨"b", 26, 26⟩, Event.request ⟨"a", 27, 27⟩]
      = verdicts 10 [("a", 0), ("b", 7)]
        (requestsOf [Event.request ⟨"a", 8, 8⟩, Event.tick 12, Event.request ⟨"a", 13, 14⟩,
          Event.tick 25, Event.request ⟨"b", 26, 26⟩, Event.request ⟨"a", 27, 27⟩]) ∧
    (handle 10 (cleanupTick 10 12 [("a", 0), ("b", 7)]) ⟨"a", 13, 14⟩).verdict
      = (handle 10 [("a", 0), ("b", 7)] ⟨"a", 13, 14⟩).verdict) :=
  ⟨by decide, by decide, by decide,
    reclamation_transparent 10 8 12 [("a", 0), ("b", 7)]
      [Event.request ⟨"a", 8, 8⟩, Event.tick 12, Event.request ⟨"a", 13, 14⟩,
        Event.tick 25, Event.request ⟨"b", 26, 26⟩, Event.request ⟨"a", 27, 27⟩]
      ⟨"a", 13, 14⟩ (by decide) (by decide) (by decide)⟩

end RateLimiter
